import Mathlib

/-!
Verification of the CarTrendsAnalysis filtering/indicator pipeline.

The dashboard entry point `src/app.py` imports `load_data`,
`get_unique_values`, `filter_data` and `calculate_market_indicators`
from `utils/data_processor.py`; that module is not part of the sources
available here, so those operations are modelled from the
specification (each such definition carries a doc comment starting with
`Modelled from the spec:`).  The inline date-range filtering and the
sidebar filter-state updates live in `src/app.py` itself and are
embedded directly from that source.

Data model: a cell value is either a categorical string or a number
(dates, years, sales counts and prices are all modelled as rationals);
a row is an association list from column names to values; a dataset is
a column list together with an ordered list of rows.
-/

/-- A cell value of the tabular dataset: a categorical string or a
number (used for dates, years, sales counts and prices). -/
inductive Value where
  | str (s : String)
  | num (q : ℚ)
deriving DecidableEq, Repr

/-- Ascending order on cell values: numbers before strings, numbers by
numeric order, strings by lexicographic order. -/
def Value.le : Value → Value → Prop
  | .num a, .num b => a ≤ b
  | .num _, .str _ => True
  | .str _, .num _ => False
  | .str a, .str b => a ≤ b

instance : DecidableRel Value.le := fun a b => by
  cases a <;> cases b <;> simp only [Value.le] <;> infer_instance

instance : IsTotal Value Value.le where
  total a b := by
    cases a <;> cases b <;> simp only [Value.le] <;> first
      | exact le_total _ _
      | simp

instance : IsTrans Value Value.le where
  trans a b c hab hbc := by
    cases a <;> cases b <;> cases c <;>
      simp only [Value.le] at hab hbc ⊢ <;>
      exact le_trans hab hbc

/-- One row of the dataset: an association list from column names to
cell values. -/
abbrev Row : Type := List (String × Value)

/-- A dataset: a schema (list of column names) and an ordered list of
rows. -/
structure Dataset where
  cols : List String
  rows : List Row
deriving DecidableEq, Repr

/-- The value a row holds at a column, if any. -/
def Row.val (r : Row) (c : String) : Option Value :=
  List.lookup c r

/-- The filter state: a mapping (association list) from column names to
the list of allowed values for that column. -/
abbrev FilterState : Type := List (String × List Value)

/-- The column names that carry an entry in the filter state. -/
def FilterState.keys (fs : FilterState) : List String :=
  fs.map Prod.fst

/-- Remove every entry for column `c` from the filter state (the model
of deleting the key from the session filter dictionary). -/
def FilterState.erase (fs : FilterState) (c : String) : FilterState :=
  List.filter (fun p => p.1 ≠ c) fs

/-- Store the allowed values `vs` for column `c` in the filter state
(the model of assigning to the key in the session filter dictionary). -/
def FilterState.store (fs : FilterState) (c : String) (vs : List Value) :
    FilterState :=
  (c, vs) :: FilterState.erase fs c

/-- Whether a single row passes every predicate of the filter state over
the given schema: an entry for a column absent from the schema is a
no-op, and an entry for a present column keeps the row exactly when the
row value there is among the allowed values. -/
def rowKeep (cols : List String) (fs : FilterState) (r : Row) : Bool :=
  fs.all fun p =>
    if p.1 ∈ cols then
      match Row.val r p.1 with
      | some v => p.2.contains v
      | none => false
    else true

/-- Modelled from the spec: `filter_data` of the missing
`utils/data_processor.py`.  Returns the subset of rows satisfying all
active predicates (logical AND across filters, membership within a
filter allowed-value list); a filter on a column absent from the
schema is a no-op. -/
def filter_data (D : Dataset) (fs : FilterState) : Dataset :=
  ⟨D.cols, D.rows.filter (rowKeep D.cols fs)⟩

/-- The values appearing in column `c`, in row order. -/
def colValues (D : Dataset) (c : String) : List Value :=
  D.rows.filterMap (fun r => Row.val r c)

/-- Modelled from the spec: `get_unique_values` of the missing
`utils/data_processor.py`: the distinct values of a column, sorted
ascending; empty when the column is absent from the schema. -/
def get_unique_values (D : Dataset) (c : String) : List Value :=
  if c ∈ D.cols then List.insertionSort Value.le (colValues D c).dedup
  else []

/-- The numeric values appearing in column `c`, in row order. -/
def numValues (D : Dataset) (c : String) : List ℚ :=
  D.rows.filterMap (fun r =>
    match Row.val r c with
    | some (.num q) => some q
    | _ => none)

/-- The date of a row, when the row has a numeric date cell. -/
def rowDate (r : Row) : Option ℚ :=
  match Row.val r "date" with
  | some (.num d) => some d
  | _ => none

/-- The distinct dates occurring in the dataset. -/
def distinctDates (D : Dataset) : List ℚ :=
  (D.rows.filterMap rowDate).dedup

/-- The earlier half of the distinct dates (first half of the dates in
ascending order). -/
def earlierDates (D : Dataset) : List ℚ :=
  let ds := List.insertionSort (· ≤ ·) (distinctDates D)
  ds.take (ds.length / 2)

/-- The date/value pairs of column `c`, over the rows carrying both a
date and a numeric value in `c`. -/
def datedValues (D : Dataset) (c : String) : List (ℚ × ℚ) :=
  D.rows.filterMap (fun r =>
    match rowDate r, Row.val r c with
    | some d, some (.num q) => some (d, q)
    | _, _ => none)

/-- Sum of column `c` over the rows dated in the earlier half. -/
def earlierSum (D : Dataset) (c : String) : ℚ :=
  (((datedValues D c).filter (fun p => p.1 ∈ earlierDates D)).map
    Prod.snd).sum

/-- Sum of column `c` over the rows dated in the later half. -/
def laterSum (D : Dataset) (c : String) : ℚ :=
  (((datedValues D c).filter (fun p => p.1 ∉ earlierDates D)).map
    Prod.snd).sum

/-- Modelled from the spec: the trend computation of
`calculate_market_indicators` in the missing `utils/data_processor.py`:
percentage change between the later and the earlier half of the
date-ordered series of column `c`, defined as 0 when fewer than 2
distinct dates exist or the earlier-half sum is 0 (the guarded
division-by-zero case). -/
def pctTrend (D : Dataset) (c : String) : ℚ :=
  if (distinctDates D).length < 2 ∨ earlierSum D c = 0 then 0
  else (laterSum D c - earlierSum D c) / earlierSum D c * 100

/-- The brand cell values of the dataset, in row order. -/
def brandValues (D : Dataset) : List Value :=
  colValues D "brand"

/-- Per-brand measure: the sum of `sales_count` over the rows of brand
`b` when that column is in the schema, else the number of rows of brand
`b`. -/
def brandMeasure (D : Dataset) (b : Value) : ℚ :=
  if "sales_count" ∈ D.cols then
    (D.rows.filterMap (fun r =>
      match Row.val r "brand", Row.val r "sales_count" with
      | some b2, some (.num q) => if b2 = b then some q else none
      | _, _ => none)).sum
  else ((D.rows.filter (fun r => Row.val r "brand" == some b)).length : ℚ)

/-- First maximiser of `f` among `acc` and the elements of the list,
keeping the earlier element on ties. -/
def argmaxFrom (f : Value → ℚ) (acc : Value) : List Value → Value
  | [] => acc
  | x :: xs => argmaxFrom f (if f acc < f x then x else acc) xs

/-- Modelled from the spec: the `top_brand` computation of
`calculate_market_indicators` in the missing `utils/data_processor.py`:
group by brand, sum `sales_count` (or count rows) per brand, and return
the first brand in ascending order attaining the maximal measure;
the string N/A when the brand column is absent or the table is empty. -/
def topBrand (D : Dataset) : Value :=
  if "brand" ∈ D.cols ∧ D.rows ≠ [] then
    match List.insertionSort Value.le (brandValues D).dedup with
    | [] => .str "N/A"
    | b :: bs => argmaxFrom (brandMeasure D) b bs
  else .str "N/A"

/-- Modelled from the spec: the average-price computation of
`calculate_market_indicators` in the missing `utils/data_processor.py`:
the arithmetic mean of the price column, 0 when no price values exist. -/
def meanPrice (D : Dataset) : ℚ :=
  if numValues D "price" = [] then 0
  else (numValues D "price").sum / ((numValues D "price").length : ℚ)

/-- The computed indicator record: total sales, average price, the two
trend percentages and the top brand. -/
structure IndicatorSet where
  total_sales : ℚ
  avg_price : ℚ
  price_trend : ℚ
  sales_growth : ℚ
  top_brand : Value
deriving DecidableEq, Repr

/-- Modelled from the spec: `calculate_market_indicators` of the missing
`utils/data_processor.py`.  Computes the aggregate indicator record of a
(filtered) dataset. -/
def calculate_market_indicators (D : Dataset) : IndicatorSet :=
  { total_sales :=
      if "sales_count" ∈ D.cols then (numValues D "sales_count").sum
      else (D.rows.length : ℚ)
    avg_price := meanPrice D
    price_trend := pctTrend D "price"
    sales_growth := pctTrend D "sales_count"
    top_brand := topBrand D }

/-- The inline date-range filter of main in src/app.py, lines 76-78:
keeps the rows whose date cell is at least the chosen start date and at
most the chosen end date (closed interval); rows without a date cell do
not satisfy the comparison and are dropped. -/
def dateRangeFilter (D : Dataset) (startDate endDate : ℚ) : Dataset :=
  ⟨D.cols, D.rows.filter (fun r =>
    match rowDate r with
    | some d => decide (startDate ≤ d) && decide (d ≤ endDate)
    | none => false)⟩

/-- The sidebar update for a category multiselect in main of src/app.py
(brand at lines 85-89, region at 107-111, vehicle type at 118-122):
when the selection is nonempty and does not contain the sentinel All,
the selection is stored for the column; otherwise any entry for the
column is deleted from the session filter state. -/
def updateCategoryFilter (fs : FilterState) (col : String)
    (sel : List Value) : FilterState :=
  if Value.str "All" ∉ sel ∧ sel ≠ [] then FilterState.store fs col sel
  else FilterState.erase fs col

/-- The sidebar update for the year multiselect in main of src/app.py,
lines 96-100: the options are strings; when the selection is stored,
the selected strings other than All are converted back to integers. -/
def updateYearFilter (fs : FilterState) (sel : List String) : FilterState :=
  if "All" ∉ sel ∧ sel ≠ [] then
    FilterState.store fs "year"
      ((sel.filter (fun s => s ≠ "All")).filterMap
        (fun s => (String.toInt? s).map (fun n => Value.num (n : ℚ))))
  else FilterState.erase fs "year"

/-- A sample row of the sample dataset below. -/
def sampleRow1 : Row :=
  [("date", .num 1), ("brand", .str "A"), ("year", .num 2022),
   ("sales_count", .num 10), ("price", .num 100)]

/-- A second sample row of the sample dataset below. -/
def sampleRow2 : Row :=
  [("date", .num 2), ("brand", .str "B"), ("year", .num 2023),
   ("sales_count", .num 30), ("price", .num 300)]

/-- A sample dataset used by the concrete witnesses below. -/
def sampleD : Dataset :=
  ⟨["date", "brand", "year", "sales_count", "price"],
   [sampleRow1, sampleRow2]⟩

example :
    filter_data ⟨["brand"], [[("brand", .str "A")], [("brand", .str "B")]]⟩
      [("brand", [.str "A"])] =
    ⟨["brand"], [[("brand", .str "A")]]⟩ := by decide

lemma rowKeep_append (cols : List String) (F1 F2 : FilterState) (r : Row) :
    rowKeep cols (F1 ++ F2) r = (rowKeep cols F1 r && rowKeep cols F2 r) := by
  simp [rowKeep, List.all_append]

/-- C1: filters on disjoint key sets compose: filtering by `F1` and then
by `F2` equals filtering once by the union mapping `F1 ++ F2`. -/
theorem filter_data_compose (D : Dataset) (F1 F2 : FilterState)
    (hdisj : ∀ c ∈ FilterState.keys F1, c ∉ FilterState.keys F2) :
    filter_data (filter_data D F1) F2 = filter_data D (F1 ++ F2) := by
  unfold filter_data
  simp only [List.filter_filter]
  congr 1
  apply List.filter_congr
  intro r _
  rw [rowKeep_append, Bool.and_comm]

/-- Concrete witness for `filter_data_compose`. -/
theorem filter_data_compose_witness :
    (∀ c ∈ FilterState.keys [("brand", [Value.str "A"])],
        c ∉ FilterState.keys [("year", [Value.num 2022])]) ∧
    filter_data (filter_data sampleD [("brand", [Value.str "A"])])
        [("year", [Value.num 2022])] =
      filter_data sampleD
        ([("brand", [Value.str "A"])] ++ [("year", [Value.num 2022])]) :=
  ⟨by decide, filter_data_compose sampleD _ _ (by decide)⟩

/-- C2: an empty filter state returns the dataset unchanged, rows in the
same order. -/
theorem filter_data_empty (D : Dataset) : filter_data D [] = D := by
  cases D with
  | mk cols rows => simp [filter_data, rowKeep]

/-- C3: filtering returns a subset of the rows in their original order
(the row list of the output is a sublist of the input row list) over the
unchanged schema; the input dataset is a pure-function argument and is
never mutated. -/
theorem filter_data_sublist (D : Dataset) (F : FilterState) :
    (filter_data D F).rows.Sublist D.rows ∧ (filter_data D F).cols = D.cols :=
  ⟨List.filter_sublist D.rows, rfl⟩

lemma rowKeep_erase (cols : List String) (c : String) (hc : c ∉ cols)
    (fs : FilterState) (r : Row) :
    rowKeep cols (FilterState.erase fs c) r = rowKeep cols fs r := by
  induction fs with
  | nil => rfl
  | cons p fs ih =>
    by_cases hp : p.1 = c
    · have h1 : FilterState.erase (p :: fs) c = FilterState.erase fs c := by
        simp [FilterState.erase, hp]
      have h2 : p.1 ∉ cols := hp ▸ hc
      rw [h1, ih]
      simp [rowKeep, List.all_cons, h2]
    · have h1 : FilterState.erase (p :: fs) c = p :: FilterState.erase fs c := by
        simp [FilterState.erase, hp]
      rw [h1]
      simp only [rowKeep, List.all_cons] at ih ⊢
      rw [ih]

/-- C8: a filter entry whose column is absent from the schema imposes no
constraint: dropping every entry for that column leaves the result of
`filter_data` unchanged (the remaining filters still apply). -/
theorem filter_data_absent_col (D : Dataset) (F : FilterState) (c : String)
    (hc : c ∉ D.cols) :
    filter_data D F = filter_data D (FilterState.erase F c) := by
  unfold filter_data
  congr 1
  apply List.filter_congr
  intro r _
  rw [rowKeep_erase D.cols c hc]

/-- Concrete witness for `filter_data_absent_col`. -/
theorem filter_data_absent_col_witness :
    "region" ∉ sampleD.cols ∧
    filter_data sampleD
        [("region", [Value.str "West"]), ("brand", [Value.str "B"])] =
      filter_data sampleD
        (FilterState.erase
          [("region", [Value.str "West"]), ("brand", [Value.str "B"])]
          "region") :=
  ⟨by decide, filter_data_absent_col sampleD _ "region" (by decide)⟩

/-- C4: the total-sales indicator is the sum of the sales_count column
when that column is in the schema, and the number of rows otherwise. -/
theorem total_sales_spec (D : Dataset) :
    (calculate_market_indicators D).total_sales =
      if "sales_count" ∈ D.cols then
        (D.rows.filterMap (fun r =>
          match Row.val r "sales_count" with
          | some (Value.num q) => some q
          | _ => none)).sum
      else (D.rows.length : ℚ) :=
  rfl

/-- C5: the trend computations are total and guarded: each trend field
is 0 whenever the dataset has fewer than 2 distinct dates or the
corresponding earlier-half sum is 0, and on an empty dataset both trend
fields are 0. -/
theorem trend_guarded (D : Dataset) :
    (((distinctDates D).length < 2 ∨ earlierSum D "price" = 0) →
      (calculate_market_indicators D).price_trend = 0) ∧
    (((distinctDates D).length < 2 ∨ earlierSum D "sales_count" = 0) →
      (calculate_market_indicators D).sales_growth = 0) ∧
    (D.rows = [] →
      (calculate_market_indicators D).price_trend = 0 ∧
      (calculate_market_indicators D).sales_growth = 0) := by
  refine ⟨fun h => ?_, fun h => ?_, fun h => ?_⟩
  · show pctTrend D "price" = 0
    unfold pctTrend
    rw [if_pos h]
  · show pctTrend D "sales_count" = 0
    unfold pctTrend
    rw [if_pos h]
  · have hd : (distinctDates D).length < 2 := by
      simp [distinctDates, h]
    constructor
    · show pctTrend D "price" = 0
      unfold pctTrend
      rw [if_pos (Or.inl hd)]
    · show pctTrend D "sales_count" = 0
      unfold pctTrend
      rw [if_pos (Or.inl hd)]

/-- Concrete witness for `trend_guarded`: the empty dataset. -/
theorem trend_guarded_witness :
    (Dataset.mk [] []).rows = [] ∧
    (calculate_market_indicators ⟨[], []⟩).price_trend = 0 ∧
    (calculate_market_indicators ⟨[], []⟩).sales_growth = 0 :=
  ⟨rfl, (trend_guarded ⟨[], []⟩).2.2 rfl⟩

/-- C9: `get_unique_values` returns the distinct values of the column,
sorted ascending and without duplicates, and returns the empty sequence
when the column is absent from the schema. -/
theorem get_unique_values_spec (D : Dataset) (c : String) :
    (c ∉ D.cols → get_unique_values D c = []) ∧
    (c ∈ D.cols →
      List.Sorted Value.le (get_unique_values D c) ∧
      (get_unique_values D c).Nodup ∧
      ∀ v, (v ∈ get_unique_values D c ↔ v ∈ colValues D c)) := by
  constructor
  · intro h
    simp [get_unique_values, h]
  · intro h
    have hval : get_unique_values D c =
        List.insertionSort Value.le (colValues D c).dedup := by
      simp [get_unique_values, h]
    rw [hval]
    refine ⟨List.sorted_insertionSort Value.le _, ?_, ?_⟩
    · exact (List.perm_insertionSort Value.le _).nodup_iff.mpr
        (List.nodup_dedup _)
    · intro v
      rw [List.mem_insertionSort, List.mem_dedup]

/-- Concrete witness for `get_unique_values_spec`: an absent column
yields the empty sequence. -/
theorem get_unique_values_spec_witness :
    "region" ∉ sampleD.cols ∧ get_unique_values sampleD "region" = [] :=
  ⟨by decide, (get_unique_values_spec sampleD "region").1 (by decide)⟩

lemma argmaxFrom_mem (f : Value → ℚ) (acc : Value) (l : List Value) :
    argmaxFrom f acc l = acc ∨ argmaxFrom f acc l ∈ l := by
  induction l generalizing acc with
  | nil => exact Or.inl rfl
  | cons x xs ih =>
    rw [argmaxFrom]
    rcases ih (if f acc < f x then x else acc) with h | h
    · rw [h]
      by_cases hx : f acc < f x
      · rw [if_pos hx]
        exact Or.inr (List.mem_cons_self x xs)
      · rw [if_neg hx]
        exact Or.inl rfl
    · exact Or.inr (List.mem_cons_of_mem x h)

lemma argmaxFrom_ge (f : Value → ℚ) (acc : Value) (l : List Value) :
    f acc ≤ f (argmaxFrom f acc l) ∧
    ∀ x ∈ l, f x ≤ f (argmaxFrom f acc l) := by
  induction l generalizing acc with
  | nil => exact ⟨le_refl _, by simp⟩
  | cons x xs ih =>
    rw [argmaxFrom]
    obtain ⟨h1, h2⟩ := ih (if f acc < f x then x else acc)
    have hacc : f acc ≤ f (if f acc < f x then x else acc) := by
      by_cases hx : f acc < f x
      · rw [if_pos hx]
        exact le_of_lt hx
      · rw [if_neg hx]
    have hx0 : f x ≤ f (if f acc < f x then x else acc) := by
      by_cases hx : f acc < f x
      · rw [if_pos hx]
      · rw [if_neg hx]
        exact le_of_not_lt hx
    refine ⟨le_trans hacc h1, ?_⟩
    intro y hy
    rcases List.mem_cons.mp hy with hy | hy
    · rw [hy]
      exact le_trans hx0 h1
    · exact h2 y hy

/-- C6: the top-brand indicator is the string N/A when the brand column
is absent or the table is empty, and otherwise (whenever any brand value
exists) it is a brand occurring in the data whose per-brand measure
(sum of sales counts, or row count when that column is absent) is
maximal. -/
theorem top_brand_spec (D : Dataset) :
    (("brand" ∉ D.cols ∨ D.rows = []) →
      (calculate_market_indicators D).top_brand = Value.str "N/A") ∧
    ("brand" ∈ D.cols → D.rows ≠ [] → brandValues D ≠ [] →
      (calculate_market_indicators D).top_brand ∈ brandValues D ∧
      ∀ b ∈ brandValues D,
        brandMeasure D b ≤
          brandMeasure D (calculate_market_indicators D).top_brand) := by
  constructor
  · intro h
    show topBrand D = Value.str "N/A"
    unfold topBrand
    rcases h with h | h
    · rw [if_neg (by simp [h])]
    · rw [if_neg (by simp [h])]
  · intro h1 h2 h3
    show topBrand D ∈ brandValues D ∧
      ∀ b ∈ brandValues D, brandMeasure D b ≤ brandMeasure D (topBrand D)
    have hL : List.insertionSort Value.le (brandValues D).dedup ≠ [] := by
      intro h0
      have hperm := List.perm_insertionSort Value.le (brandValues D).dedup
      rw [h0] at hperm
      exact h3 ((List.dedup_eq_nil _).mp hperm.symm.eq_nil)
    cases hcase : List.insertionSort Value.le (brandValues D).dedup with
    | nil => exact absurd hcase hL
    | cons b bs =>
      have hmem : ∀ x : Value, x ∈ b :: bs ↔ x ∈ brandValues D := by
        intro x
        rw [← hcase, List.mem_insertionSort, List.mem_dedup]
      have hres : topBrand D = argmaxFrom (brandMeasure D) b bs := by
        unfold topBrand
        rw [if_pos ⟨h1, h2⟩, hcase]
      rw [hres]
      constructor
      · rcases argmaxFrom_mem (brandMeasure D) b bs with h | h
        · exact (hmem _).mp (by rw [h]; exact List.mem_cons_self b bs)
        · exact (hmem _).mp (List.mem_cons_of_mem b h)
      · intro v hv
        rcases List.mem_cons.mp ((hmem v).mpr hv) with h | h
        · rw [h]
          exact (argmaxFrom_ge (brandMeasure D) b bs).1
        · exact (argmaxFrom_ge (brandMeasure D) b bs).2 v h

/-- Concrete witness for `top_brand_spec`. -/
theorem top_brand_spec_witness :
    "brand" ∈ sampleD.cols ∧ sampleD.rows ≠ [] ∧ brandValues sampleD ≠ [] ∧
    (calculate_market_indicators sampleD).top_brand ∈ brandValues sampleD :=
  ⟨by decide, by decide, by decide,
    ((top_brand_spec sampleD).2 (by decide) (by decide) (by decide)).1⟩

/-- C7: the date-range filter of main keeps a dated row exactly when its
date lies in the closed interval between the chosen start and end dates
(both endpoints inclusive, so a row dated on an endpoint is kept). -/
theorem date_range_inclusive (D : Dataset) (s e : ℚ) (r : Row) (d : ℚ)
    (hcol : "date" ∈ D.cols) (hr : r ∈ D.rows) (hd : rowDate r = some d) :
    r ∈ (dateRangeFilter D s e).rows ↔ (s ≤ d ∧ d ≤ e) := by
  simp [dateRangeFilter, List.mem_filter, hr, hd]

/-- Concrete witness for `date_range_inclusive`: a row dated exactly on
the start endpoint is kept. -/
theorem date_range_inclusive_witness :
    "date" ∈ sampleD.cols ∧ sampleRow1 ∈ sampleD.rows ∧
    rowDate sampleRow1 = some 1 ∧
    (sampleRow1 ∈ (dateRangeFilter sampleD 1 2).rows ↔
      ((1 : ℚ) ≤ 1 ∧ (1 : ℚ) ≤ 2)) :=
  ⟨by decide, by decide, by decide,
    date_range_inclusive sampleD 1 2 sampleRow1 1 (by decide) (by decide)
      (by decide)⟩

lemma keys_erase_not_mem (fs : FilterState) (c : String) :
    c ∉ FilterState.keys (FilterState.erase fs c) := by
  intro hmem
  simp [FilterState.keys, FilterState.erase, List.mem_map,
    List.mem_filter] at hmem

lemma lookup_erase (fs : FilterState) (c : String) :
    List.lookup c (FilterState.erase fs c) = none := by
  induction fs with
  | nil => rfl
  | cons p fs ih =>
    obtain ⟨k, v⟩ := p
    by_cases hp : k = c
    · have h1 : FilterState.erase ((k, v) :: fs) c = FilterState.erase fs c := by
        simp [FilterState.erase, hp]
      rw [h1, ih]
    · have h1 : FilterState.erase ((k, v) :: fs) c =
          (k, v) :: FilterState.erase fs c := by
        simp [FilterState.erase, hp]
      rw [h1]
      have hne : (c == k) = false := by
        rw [beq_eq_false_iff_ne]
        exact Ne.symm hp
      simp [List.lookup, hne, ih]

/-- C10: the sidebar multiselect updates: a selection containing the
sentinel All, or an empty selection, deletes the column entry from the
filter state, so the subsequent `filter_data` call behaves as if the
column filter were erased; and whatever the year update stores under the
year key is a list of integer-valued numbers (the string options are
converted back to integers). -/
theorem filter_update_spec (fs : FilterState) (col : String)
    (sel : List Value) (selY : List String) :
    ((Value.str "All" ∈ sel ∨ sel = []) →
      col ∉ FilterState.keys (updateCategoryFilter fs col sel) ∧
      ∀ D, filter_data D (updateCategoryFilter fs col sel) =
        filter_data D (FilterState.erase fs col)) ∧
    (("All" ∈ selY ∨ selY = []) →
      "year" ∉ FilterState.keys (updateYearFilter fs selY)) ∧
    (∀ vs, List.lookup "year" (updateYearFilter fs selY) = some vs →
      ∀ v ∈ vs, ∃ n : Int, v = Value.num (n : ℚ)) := by
  refine ⟨fun h => ?_, fun h => ?_, fun vs hvs v hv => ?_⟩
  · have hcond : ¬(Value.str "All" ∉ sel ∧ sel ≠ []) := by
      rcases h with h | h
      · exact fun hc => hc.1 h
      · exact fun hc => hc.2 h
    unfold updateCategoryFilter
    rw [if_neg hcond]
    exact ⟨keys_erase_not_mem fs col, fun D => rfl⟩
  · have hcond : ¬("All" ∉ selY ∧ selY ≠ []) := by
      rcases h with h | h
      · exact fun hc => hc.1 h
      · exact fun hc => hc.2 h
    unfold updateYearFilter
    rw [if_neg hcond]
    exact keys_erase_not_mem fs "year"
  · by_cases hcond : "All" ∉ selY ∧ selY ≠ []
    · unfold updateYearFilter at hvs
      rw [if_pos hcond] at hvs
      unfold FilterState.store at hvs
      simp only [List.lookup, beq_self_eq_true, Option.some.injEq] at hvs
      rw [← hvs] at hv
      obtain ⟨s, hs, hg⟩ := List.mem_filterMap.mp hv
      cases hts : String.toInt? s with
      | none =>
        rw [hts] at hg
        simp at hg
      | some n =>
        rw [hts] at hg
        simp at hg
        exact ⟨n, hg.symm⟩
    · unfold updateYearFilter at hvs
      rw [if_neg hcond, lookup_erase] at hvs
      exact absurd hvs (by simp)

/-- Concrete witness for `filter_update_spec`: a selection containing
the sentinel All leaves no entry for the column in the filter state. -/
theorem filter_update_spec_witness :
    Value.str "All" ∈ [Value.str "All", Value.str "A"] ∧
    "brand" ∉ FilterState.keys
      (updateCategoryFilter [("brand", [Value.str "B"])] "brand"
        [Value.str "All", Value.str "A"]) :=
  ⟨by decide,
    ((filter_update_spec [("brand", [Value.str "B"])] "brand"
        [Value.str "All", Value.str "A"] ["2022"]).1
      (Or.inl (by decide))).1⟩
